import Mathlib

/-!
Verification of the github-user-apis core services: language aggregation,
event scoring, and the leaderboard. The repository ships only the unit
tests for `LanguageService`, `ScoringService` and `LeaderboardService`;
the service implementations themselves are modelled here from the
specification, as close to its words as the embedding allows. Maps with
dynamic string keys (language byte maps, the leaderboard registry) are
association lists in insertion order, matching JavaScript object / Map
key ordering.
-/

/-- Association list from language name to byte count (a JavaScript
object whose keys are language names). -/
def LangMap : Type := List (String × Nat)

/-- Lookup of a key in an association list: the value at the first
matching key, or `none`. -/
def lookupVal (k : String) : List (String × Nat) → Option Nat
  | [] => none
  | (k', v) :: rest => if k' = k then some v else lookupVal k rest

/-- Lookup defaulting to `0` for an absent key (the JavaScript
`acc[lang] || 0` idiom). -/
def lookupValD (k : String) (m : List (String × Nat)) : Nat :=
  (lookupVal k m).getD 0

/-- Modelled from the spec: the accumulator update of
`aggregateLanguages` (implementation file `language.service.js` is not
in the repository). Adds `v` to the running total at key `k`,
initializing to `0` if the key is unseen (`acc[k] = (acc[k] || 0) + v`),
keeping insertion order. -/
def upsertAdd : List (String × Nat) → String → Nat → List (String × Nat)
  | [], k, v => [(k, v)]
  | (k', v') :: rest, k, v =>
      if k' = k then (k', v' + v) :: rest else (k', v') :: upsertAdd rest k v

/-- Folds one repository's byte map into the accumulator, entry by
entry. -/
def mergeMap (acc : List (String × Nat)) : List (String × Nat) → List (String × Nat)
  | [] => acc
  | (k, v) :: rest => mergeMap (upsertAdd acc k v) rest

/-- Modelled from the spec: `LanguageService.aggregateLanguages`
(implementation not in the repository). Iterates the per-repository
byte maps, skipping `null`/`undefined` entries (`none`), and sums byte
counts per language into a totals map. -/
def aggregateLanguages (maps : List (Option (List (String × Nat)))) : List (String × Nat) :=
  aggAux [] maps
where
  aggAux (acc : List (String × Nat)) : List (Option (List (String × Nat))) → List (String × Nat)
  | [] => acc
  | none :: ms => aggAux acc ms
  | some m :: ms => aggAux (mergeMap acc m) ms

/-- Whether key `k` occurs in an association list. -/
def containsKey (k : String) : List (String × Nat) → Bool
  | [] => false
  | (k', _) :: rest => if k' = k then true else containsKey k rest

/-- Sum of all values stored under key `k` in one association list. -/
def keyTotal (k : String) : List (String × Nat) → Nat
  | [] => 0
  | (k', v) :: rest => (if k' = k then v else 0) + keyTotal k rest

/-- Whether language `k` appears in any present (non-null) input map. -/
def presentIn (k : String) : List (Option (List (String × Nat))) → Bool
  | [] => false
  | none :: ms => presentIn k ms
  | some m :: ms => containsKey k m || presentIn k ms

/-- Sum of the byte counts of language `k` over all present (non-null)
input maps. -/
def totalOf (k : String) : List (Option (List (String × Nat))) → Nat
  | [] => 0
  | none :: ms => totalOf k ms
  | some m :: ms => keyTotal k m + totalOf k ms

/-- Grand total of a totals map: the sum of all its byte counts. -/
def grandTotal : List (String × Nat) → Nat
  | [] => 0
  | (_, v) :: rest => v + grandTotal rest

/-- Value of `100 * v / total` percent expressed in hundredths of a
percent, rounded to nearest (halves up): the exact rational
`10000 * v / total` rounded to an integer. -/
def roundedPermyriad (v total : Nat) : Nat :=
  (20000 * v + total) / (2 * total)

/-- Renders a number of hundredths of a percent as a percentage string
with exactly two decimal places, e.g. `9999 ↦ "99.99%"`, `1 ↦ "0.01%"`,
`10000 ↦ "100.00%"`. -/
def formatHundredths (h : Nat) : String :=
  toString (h / 100) ++ "." ++
    (if h % 100 < 10 then "0" ++ toString (h % 100) else toString (h % 100)) ++ "%"

/-- Modelled from the spec: `LanguageService.calculatePercentages`
(implementation not in the repository). If the grand total is `0`
(which covers the empty map) it returns the empty distribution;
otherwise each language maps to `100 * value / grandTotal` rounded to
two decimal places and suffixed with `%`. -/
def calculatePercentages (totals : List (String × Nat)) : List (String × String) :=
  if grandTotal totals = 0 then []
  else totals.map fun e => (e.1, formatHundredths (roundedPermyriad e.2 (grandTotal totals)))

/-- Repository descriptor: the spec requires at least a name and an
owner. -/
structure Repo where
  name : String
  owner : String
deriving DecidableEq

/-- Outcome of the per-repository `getRepoLanguages` collaborator calls:
a rejected fetch (`Except.error`) becomes a skipped (`none`) entry, a
resolved one keeps its byte map. -/
def fetchedMaps (repos : List Repo) (fetch : Repo → Except String (List (String × Nat))) :
    List (Option (List (String × Nat))) :=
  repos.map fun r => match fetch r with
    | Except.ok m => some m
    | Except.error _ => none

/-- Modelled from the spec: `LanguageService.getLanguageDistribution`
(implementation not in the repository). The first argument stands for
the settled result of `getUserRepos(username)` (`none` for
null/undefined), `fetch` for the `getRepoLanguages` collaborator. The
second component of the result records which repositories
`getRepoLanguages` was called on: on a null/undefined/empty repository
list the service returns `{}` immediately with no calls; otherwise it
fetches every repository, treats individual failures as skipped, and
feeds the successful maps through `aggregateLanguages` and
`calculatePercentages`. -/
def getLanguageDistribution (reposResult : Option (List Repo))
    (fetch : Repo → Except String (List (String × Nat))) :
    List (String × String) × List Repo :=
  match reposResult with
  | none => ([], [])
  | some [] => ([], [])
  | some repos => (calculatePercentages (aggregateLanguages (fetchedMaps repos fetch)), repos)

/-- The distribution computed from a plain list of (successfully
retrieved) byte maps. -/
def distributionOfMaps (maps : List (List (String × Nat))) : List (String × String) :=
  calculatePercentages (aggregateLanguages (maps.map some))

/-- Nested `pull_request` object of a pull-request event payload; the
`merged` flag may be absent. -/
structure PullRequestInfo where
  merged : Option Bool
deriving DecidableEq

/-- Event payload: both the `action` field and the nested
`pull_request` object are optional. -/
structure EventPayload where
  action : Option String
  pull_request : Option PullRequestInfo
deriving DecidableEq

/-- A GitHub activity event: optional `type` tag and optional
payload. -/
structure Event where
  type : Option String
  payload : Option EventPayload
deriving DecidableEq

/-- The dynamic argument passed to `calculateImpactScore`: null or
undefined, a string, some other non-array value, or an actual array of
events. -/
inductive EventsInput where
  | nullish : EventsInput
  | strVal : String → EventsInput
  | otherVal : EventsInput
  | arr : List Event → EventsInput

/-- Modelled from the spec: the per-event points of
`ScoringService.calculateImpactScore` (implementation not in the
repository). PushEvent 1; PullRequestEvent 10 when
`payload.pull_request.merged` is true (taking precedence over the
action), else 5 when `action = "opened"`, else 0; PullRequestReviewEvent
3; anything else 0. Missing payload or nested fields are treated as
absent/false. -/
def scoreEvent (e : Event) : Nat :=
  match e.type with
  | none => 0
  | some t =>
    if t = "PushEvent" then 1
    else if t = "PullRequestEvent" then
      if ((e.payload.bind EventPayload.pull_request).bind PullRequestInfo.merged).getD false
      then 10
      else if e.payload.bind EventPayload.action = some "opened" then 5 else 0
    else if t = "PullRequestReviewEvent" then 3
    else 0

/-- Sum of per-event points over a list of events. -/
def sumScores : List Event → Nat
  | [] => 0
  | e :: rest => scoreEvent e + sumScores rest

/-- Modelled from the spec: `ScoringService.calculateImpactScore`
(implementation not in the repository). Non-array input yields 0; an
array yields the sum of its per-event points. -/
def calculateImpactScore : EventsInput → Nat
  | EventsInput.arr events => sumScores events
  | _ => 0

/-- The leaderboard registry: username/score entries in insertion
order. -/
def Board : Type := List (String × Int)

/-- Modelled from the spec: the registry update behind
`LeaderboardService.addOrUpdate` (implementation not in the
repository). Overwrites the score of an existing username in place
(last-write-wins), otherwise appends a new entry. -/
def upsert : List (String × Int) → String → Int → List (String × Int)
  | [], u, s => [(u, s)]
  | (u', s') :: rest, u, s =>
      if u' = u then (u', s) :: rest else (u', s') :: upsert rest u s

/-- Modelled from the spec: `LeaderboardService.addOrUpdate`
(implementation not in the repository). Updates the registry and
returns the resulting `{username, score}` entry. -/
def addOrUpdate (b : Board) (u : String) (s : Int) : Board × (String × Int) :=
  (upsert b u s, (u, s))

/-- Modelled from the spec: `LeaderboardService.getScore`
(implementation not in the repository). The stored score, or 0 for a
username never added. -/
def getScore : Board → String → Int
  | [], _ => 0
  | (u', s) :: rest, u => if u' = u then s else getScore rest u

/-- Modelled from the spec: `LeaderboardService.size` (implementation
not in the repository): the number of stored entries. -/
def size (b : Board) : Nat :=
  List.length b

/-- Score comparison for the descending leaderboard order: `scoreGe a b`
holds when `a`'s score is at least `b`'s. -/
def scoreGe (a b : String × Int) : Prop :=
  b.2 ≤ a.2

instance : DecidableRel scoreGe :=
  fun a b => inferInstanceAs (Decidable (b.2 ≤ a.2))

instance : IsTotal (String × Int) scoreGe :=
  ⟨fun a b => le_total b.2 a.2⟩

instance : IsTrans (String × Int) scoreGe :=
  ⟨fun _ _ _ h1 h2 => le_trans h2 h1⟩

/-- Modelled from the spec: `LeaderboardService.getTop` (implementation
not in the repository). Stable sort of the entries by score descending,
then the first `limit` of them; `limit` defaults to 10. -/
def getTop (b : Board) (limit : Nat := 10) : List (String × Int) :=
  (List.insertionSort scoreGe b).take limit

/-- Runs a sequence of `addOrUpdate` operations against a starting
registry. -/
def runOps : Board → List (String × Int) → Board
  | b, [] => b
  | b, (u, s) :: rest => runOps (upsert b u s) rest

/-- The usernames of a registry, in storage order. -/
def keys (b : List (String × Int)) : List String :=
  b.map Prod.fst

/-- Concrete `getRepoLanguages` collaborator used as a witness input: it
resolves for "repo1" and rejects for any other repository. -/
def fetchRepo1Only : Repo → Except String (List (String × Nat)) :=
  fun r => if r.name = "repo1" then Except.ok [("JavaScript", 1000)]
           else Except.error "API Error"

theorem lookupVal_upsertAdd (acc : List (String × Nat)) (k k' : String) (v : Nat) :
    lookupVal k (upsertAdd acc k' v) =
      if k' = k then some (lookupValD k acc + v) else lookupVal k acc := by
  induction acc with
  | nil => simp [upsertAdd, lookupVal, lookupValD]
  | cons e rest ih =>
    obtain ⟨k1, v1⟩ := e
    by_cases h1 : k1 = k'
    · subst h1
      by_cases h2 : k1 = k
      · subst h2
        simp [upsertAdd, lookupVal, lookupValD]
      · simp [upsertAdd, lookupVal, h2, lookupValD]
    · by_cases h2 : k1 = k
      · subst h2
        have h3 : k' ≠ k1 := fun h => h1 h.symm
        simp [upsertAdd, lookupVal, h1, h3, lookupValD]
      · simp [upsertAdd, lookupVal, h1, h2, ih, lookupValD]

theorem keyTotal_eq_zero (k : String) (m : List (String × Nat))
    (h : containsKey k m = false) : keyTotal k m = 0 := by
  induction m with
  | nil => rfl
  | cons e rest ih =>
    obtain ⟨k1, v1⟩ := e
    by_cases h1 : k1 = k
    · simp [containsKey, h1] at h
    · simp [containsKey, h1] at h
      simp [keyTotal, h1, ih h]

theorem lookupVal_mergeMap (m : List (String × Nat)) :
    ∀ (acc : List (String × Nat)) (k : String),
      lookupVal k (mergeMap acc m) =
        if containsKey k m then some (lookupValD k acc + keyTotal k m)
        else lookupVal k acc := by
  induction m with
  | nil => intro acc k; simp [mergeMap, containsKey]
  | cons e rest ih =>
    obtain ⟨k1, v1⟩ := e
    intro acc k
    by_cases h1 : k1 = k
    · subst h1
      by_cases h2 : containsKey k1 rest
      · simp [mergeMap, ih, h2, containsKey, keyTotal, lookupValD, lookupVal_upsertAdd]
        omega
      · simp [mergeMap, ih, h2, containsKey, keyTotal, lookupValD, lookupVal_upsertAdd,
          keyTotal_eq_zero k1 rest (by simpa using h2)]
    · simp [mergeMap, ih, containsKey, keyTotal, h1, lookupValD, lookupVal_upsertAdd]

theorem totalOf_eq_zero (k : String) (ms : List (Option (List (String × Nat))))
    (h : presentIn k ms = false) : totalOf k ms = 0 := by
  induction ms with
  | nil => rfl
  | cons om rest ih =>
    cases om with
    | none => simp [presentIn] at h; simp [totalOf, ih h]
    | some m =>
      simp [presentIn] at h
      simp [totalOf, ih h.2, keyTotal_eq_zero k m h.1]

theorem lookupVal_aggAux (ms : List (Option (List (String × Nat)))) :
    ∀ (acc : List (String × Nat)) (k : String),
      lookupVal k (aggregateLanguages.aggAux acc ms) =
        if presentIn k ms then some (lookupValD k acc + totalOf k ms)
        else lookupVal k acc := by
  induction ms with
  | nil => intro acc k; simp [aggregateLanguages.aggAux, presentIn]
  | cons om rest ih =>
    cases om with
    | none => intro acc k; simp [aggregateLanguages.aggAux, presentIn, totalOf, ih]
    | some m =>
      intro acc k
      by_cases h1 : containsKey k m
      · by_cases h2 : presentIn k rest
        · simp [aggregateLanguages.aggAux, presentIn, totalOf, ih, h1, h2,
            lookupVal_mergeMap, lookupValD]
          omega
        · simp [aggregateLanguages.aggAux, presentIn, totalOf, ih, h1, h2,
            lookupVal_mergeMap, lookupValD, totalOf_eq_zero k rest (by simpa using h2)]
      · have hz := keyTotal_eq_zero k m (by simpa using h1)
        have hD : lookupValD k (mergeMap acc m) = lookupValD k acc := by
          simp [lookupValD, lookupVal_mergeMap, h1]
        simp [aggregateLanguages.aggAux, presentIn, totalOf, ih, h1, lookupVal_mergeMap, hD, hz]

theorem lookupVal_aggregateLanguages (ms : List (Option (List (String × Nat)))) (k : String) :
    lookupVal k (aggregateLanguages ms) =
      if presentIn k ms then some (totalOf k ms) else none := by
  have h := lookupVal_aggAux ms [] k
  simpa [aggregateLanguages, lookupVal, lookupValD] using h

theorem totalOf_perm {l1 l2 : List (Option (List (String × Nat)))}
    (h : List.Perm l1 l2) (k : String) : totalOf k l1 = totalOf k l2 := by
  induction h with
  | nil => rfl
  | cons x _ ih => cases x <;> simp [totalOf, ih]
  | swap x y l => cases x <;> cases y <;> simp [totalOf, Nat.add_left_comm]
  | trans _ _ ih1 ih2 => exact ih1.trans ih2

theorem presentIn_perm {l1 l2 : List (Option (List (String × Nat)))}
    (h : List.Perm l1 l2) (k : String) : presentIn k l1 = presentIn k l2 := by
  induction h with
  | nil => rfl
  | cons x _ ih => cases x <;> simp [presentIn, ih]
  | swap x y l =>
    cases x <;> cases y <;> simp [presentIn, Bool.or_left_comm]
  | trans _ _ ih1 ih2 => exact ih1.trans ih2

/-- C5: `aggregateLanguages` maps each language to the sum of its byte
counts over all present (non-null) input maps, skipping null/undefined
entries without error, and the empty input yields the empty map; the
repository's concrete test cases follow. -/
theorem aggregateLanguages_spec :
    ∀ (ms : List (Option (List (String × Nat)))) (k : String),
      aggregateLanguages [] = [] ∧
      lookupVal k (aggregateLanguages ms) =
        (if presentIn k ms then some (totalOf k ms) else none) ∧
      aggregateLanguages
          [some [("JavaScript", 1000), ("Python", 500)],
           some [("JavaScript", 2000), ("TypeScript", 1500)],
           some [("Python", 300)]] =
        [("JavaScript", 3000), ("Python", 800), ("TypeScript", 1500)] ∧
      aggregateLanguages [some [("JavaScript", 1000)], none, none, some [("Python", 500)]] =
        [("JavaScript", 1000), ("Python", 500)] := by
  intro ms k
  exact ⟨rfl, lookupVal_aggregateLanguages ms k, by decide, by decide⟩

/-- C9: `aggregateLanguages` is order-independent — permuting the input
list of byte maps yields the same totals as a key-to-value mapping. -/
theorem aggregateLanguages_perm_invariant :
    ∀ (l1 l2 : List (Option (List (String × Nat)))), List.Perm l1 l2 →
      ∀ k : String, lookupVal k (aggregateLanguages l1) = lookupVal k (aggregateLanguages l2) := by
  intro l1 l2 h k
  rw [lookupVal_aggregateLanguages, lookupVal_aggregateLanguages,
    presentIn_perm h, totalOf_perm h]

theorem aggregateLanguages_perm_invariant_witness :
    lookupVal "Python" (aggregateLanguages
        [some [("JavaScript", 1000), ("Python", 500)], none, some [("Python", 300)]]) =
      lookupVal "Python" (aggregateLanguages
        [some [("Python", 300)], some [("JavaScript", 1000), ("Python", 500)], none]) :=
  aggregateLanguages_perm_invariant _ _ (by decide) "Python"

/-- C2: `calculatePercentages` returns the empty map on an empty input
map or when the values sum to 0; otherwise each language maps to
100 × value / grandTotal rounded (not truncated) to two decimal places
followed by a percent sign, so a singleton positive map yields
"100.00%" and the 9999/1 split yields "99.99%" and "0.01%". -/
theorem calculatePercentages_spec :
    ∀ (totals : List (String × Nat)) (X : String) (n : Nat),
      calculatePercentages [] = [] ∧
      (grandTotal totals = 0 → calculatePercentages totals = []) ∧
      (0 < n → calculatePercentages [(X, n)] = [(X, "100.00%")]) ∧
      calculatePercentages [("JavaScript", 9999), ("Shell", 1)] =
        [("JavaScript", "99.99%"), ("Shell", "0.01%")] := by
  intro totals X n
  refine ⟨rfl, fun h => by simp [calculatePercentages, h], fun hn => ?_, by decide⟩
  have h1 : grandTotal [(X, n)] = n := by simp [grandTotal]
  have h2 : ¬ grandTotal [(X, n)] = 0 := by omega
  have h3 : roundedPermyriad n (grandTotal [(X, n)]) = 10000 := by
    rw [h1, roundedPermyriad]
    have h4 : 20000 * n + n = n + 2 * n * 10000 := by ring
    rw [h4, Nat.add_mul_div_left _ _ (by omega : 0 < 2 * n), Nat.div_eq_of_lt (by omega)]
  have h5 : formatHundredths 10000 = "100.00%" := rfl
  simp [calculatePercentages, h2, h3, h5]

theorem calculatePercentages_spec_witness :
    calculatePercentages [("A", 0), ("B", 0)] = [] ∧
    calculatePercentages [("X", 5)] = [("X", "100.00%")] :=
  ⟨(calculatePercentages_spec [("A", 0), ("B", 0)] "X" 5).2.1 (by decide),
   (calculatePercentages_spec [("A", 0), ("B", 0)] "X" 5).2.2.1 (by decide)⟩

/-- C1: `calculateImpactScore` on an array is the sum of per-event
points, where a PushEvent scores 1, a PullRequestEvent scores 10 when
merged regardless of its action, otherwise 5 when the action is
"opened" and 0 for any other or missing action, a
PullRequestReviewEvent scores 3, and any other or missing type scores
0; the mixed five-event list scores 20. -/
theorem calculateImpactScore_spec :
    ∀ (e : Event) (l : List Event) (p : Option EventPayload) (act : Option String) (s : String),
      calculateImpactScore (EventsInput.arr []) = 0 ∧
      calculateImpactScore (EventsInput.arr (e :: l)) =
        scoreEvent e + calculateImpactScore (EventsInput.arr l) ∧
      scoreEvent ⟨some "PushEvent", p⟩ = 1 ∧
      scoreEvent ⟨some "PullRequestEvent", some ⟨act, some ⟨some true⟩⟩⟩ = 10 ∧
      scoreEvent ⟨some "PullRequestEvent", some ⟨some "opened", some ⟨some false⟩⟩⟩ = 5 ∧
      (act ≠ some "opened" →
        scoreEvent ⟨some "PullRequestEvent", some ⟨act, some ⟨some false⟩⟩⟩ = 0) ∧
      scoreEvent ⟨some "PullRequestReviewEvent", p⟩ = 3 ∧
      scoreEvent ⟨none, p⟩ = 0 ∧
      (s ≠ "PushEvent" → s ≠ "PullRequestEvent" → s ≠ "PullRequestReviewEvent" →
        scoreEvent ⟨some s, p⟩ = 0) ∧
      calculateImpactScore (EventsInput.arr
        [⟨some "PushEvent", none⟩, ⟨some "PushEvent", none⟩,
         ⟨some "PullRequestEvent", some ⟨some "opened", some ⟨some false⟩⟩⟩,
         ⟨some "PullRequestReviewEvent", none⟩,
         ⟨some "PullRequestEvent", some ⟨none, some ⟨some true⟩⟩⟩]) = 20 := by
  intro e l p act s
  refine ⟨rfl, rfl, rfl, rfl, rfl, fun h => ?_, rfl, rfl, fun h1 h2 h3 => ?_, by decide⟩
  · simp [scoreEvent, h]
  · simp [scoreEvent, h1, h2, h3]

theorem calculateImpactScore_spec_witness :
    scoreEvent ⟨some "PullRequestEvent", some ⟨some "closed", some ⟨some false⟩⟩⟩ = 0 ∧
    scoreEvent ⟨some "IssuesEvent", none⟩ = 0 := by
  have h := calculateImpactScore_spec ⟨some "PushEvent", none⟩ [] none (some "closed") "IssuesEvent"
  exact ⟨h.2.2.2.2.2.1 (by decide), h.2.2.2.2.2.2.2.2.1 (by decide) (by decide) (by decide)⟩

/-- C8 counterexample: the claim says every event with a missing
payload contributes 0, but a PushEvent without a payload contributes 1,
so the score of the singleton list is not 0. -/
theorem impactScore_missing_payload_contributes :
    calculateImpactScore (EventsInput.arr [⟨some "PushEvent", none⟩]) ≠ 0 := by
  decide

/-- C8 amended: `calculateImpactScore` returns 0 for every non-array
input (null/undefined, a string, any other non-array value); on arrays
no event with a missing type, payload, or nested field throws — a
missing type contributes 0, while missing payload or nested fields are
treated as absent/false and the event still scores by its type rule. -/
theorem calculateImpactScore_defensive :
    ∀ (s : String) (p : Option EventPayload),
      calculateImpactScore EventsInput.nullish = 0 ∧
      calculateImpactScore (EventsInput.strVal s) = 0 ∧
      calculateImpactScore EventsInput.otherVal = 0 ∧
      scoreEvent ⟨none, p⟩ = 0 ∧
      scoreEvent ⟨some "PushEvent", none⟩ = 1 ∧
      scoreEvent ⟨some "PullRequestEvent", none⟩ = 0 ∧
      scoreEvent ⟨some "PullRequestEvent", some ⟨some "opened", none⟩⟩ = 5 ∧
      scoreEvent ⟨some "PullRequestEvent", some ⟨none, some ⟨none⟩⟩⟩ = 0 ∧
      scoreEvent ⟨some "PullRequestReviewEvent", none⟩ = 3 :=
  fun _ _ => ⟨rfl, rfl, rfl, rfl, rfl, rfl, rfl, rfl, rfl⟩


/-- C7: when `getUserRepos` yields null/undefined or the empty list,
`getLanguageDistribution` returns the empty distribution and performs
no `getRepoLanguages` calls (the second component is the list of
repositories fetched). -/
theorem getLanguageDistribution_no_repos :
    ∀ fetch : Repo → Except String (List (String × Nat)),
      getLanguageDistribution none fetch = ([], []) ∧
      getLanguageDistribution (some []) fetch = ([], []) :=
  fun _ => ⟨rfl, rfl⟩

theorem aggAux_fetchedMaps (repos : List Repo)
    (fetch : Repo → Except String (List (String × Nat))) :
    ∀ acc, aggregateLanguages.aggAux acc (fetchedMaps repos fetch) =
      aggregateLanguages.aggAux acc
        ((repos.filterMap fun r => (fetch r).toOption).map some) := by
  induction repos with
  | nil => intro acc; rfl
  | cons r rest ih =>
    intro acc
    cases hfr : fetch r with
    | ok m =>
      simp [fetchedMaps, aggregateLanguages.aggAux, hfr, Except.toOption,
        List.filterMap_cons, ih]
      have := ih (mergeMap acc m)
      simpa [fetchedMaps] using this
    | error e =>
      simp [fetchedMaps, aggregateLanguages.aggAux, hfr, Except.toOption,
        List.filterMap_cons]
      have := ih acc
      simpa [fetchedMaps] using this

/-- C6: if exactly one of the per-repository fetches rejects,
`getLanguageDistribution` still resolves, and its distribution equals
the one computed from the successful maps alone. -/
theorem getLanguageDistribution_single_failure :
    ∀ (repos : List Repo) (fetch : Repo → Except String (List (String × Nat))),
      (repos.filter fun r => ((fetch r).toOption).isNone).length = 1 →
      (getLanguageDistribution (some repos) fetch).1 =
        distributionOfMaps (repos.filterMap fun r => (fetch r).toOption) := by
  intro repos fetch _
  cases repos with
  | nil => rfl
  | cons r rest =>
    show (calculatePercentages (aggregateLanguages (fetchedMaps (r :: rest) fetch))) = _
    rw [distributionOfMaps, aggregateLanguages, aggregateLanguages,
      aggAux_fetchedMaps (r :: rest) fetch]

theorem getLanguageDistribution_single_failure_witness :
    (getLanguageDistribution (some [⟨"repo1", "testuser"⟩, ⟨"repo2", "testuser"⟩])
        fetchRepo1Only).1 =
      distributionOfMaps
        ([⟨"repo1", "testuser"⟩, ⟨"repo2", "testuser"⟩].filterMap
          fun r => (fetchRepo1Only r).toOption) :=
  getLanguageDistribution_single_failure _ _ (by decide)

/-- C3: `getTop` returns the min(limit, size) stored entries of highest
score sorted descending, all of them (no padding) when the limit
exceeds the size, the empty sequence on an empty leaderboard, defaults
the limit to 10, and over scores {10,50,30,40} the top 3 are
[50,40,30]. -/
theorem getTop_spec :
    ∀ (b : Board) (k : Nat),
      (getTop b k).length = min k (size b) ∧
      List.Pairwise (fun x y : String × Int => y.2 ≤ x.2) (getTop b k) ∧
      (∃ rest, List.Perm (getTop b k ++ rest) b ∧
        ∀ x ∈ getTop b k, ∀ y ∈ rest, y.2 ≤ x.2) ∧
      (size b ≤ k → List.Perm (getTop b k) b) ∧
      getTop ([] : Board) k = [] ∧
      getTop b = getTop b 10 ∧
      getTop (runOps [] [("user1", 10), ("user2", 50), ("user3", 30), ("user4", 40)]) 3 =
        [("user2", 50), ("user4", 40), ("user3", 30)] := by
  intro b k
  have hsorted : List.Pairwise scoreGe (List.insertionSort scoreGe b) :=
    List.sorted_insertionSort scoreGe b
  have hperm : List.Perm (List.insertionSort scoreGe b) b :=
    List.perm_insertionSort scoreGe b
  have hlen : (List.insertionSort scoreGe b).length = b.length :=
    List.length_insertionSort scoreGe b
  refine ⟨?_, ?_, ?_, ?_, ?_, rfl, by decide⟩
  · simp [getTop, size, hlen]
  · exact hsorted.sublist (List.take_sublist _ _)
  · refine ⟨(List.insertionSort scoreGe b).drop k, ?_, ?_⟩
    · have h1 : getTop b k ++ (List.insertionSort scoreGe b).drop k =
          List.insertionSort scoreGe b := List.take_append_drop k _
      rw [h1]; exact hperm
    · intro x hx y hy
      have h2 := hsorted
      rw [← List.take_append_drop k (List.insertionSort scoreGe b)] at h2
      exact (List.pairwise_append.mp h2).2.2 x hx y hy
  · intro hbk
    have h3 : getTop b k = List.insertionSort scoreGe b :=
      List.take_of_length_le (by rw [hlen]; exact hbk)
    rw [h3]; exact hperm
  · simp [getTop]

theorem getTop_spec_witness :
    List.Perm (getTop (upsert [] "solo" 7) 5) (upsert [] "solo" 7) :=
  (getTop_spec (upsert [] "solo" 7) 5).2.2.2.1 (by decide)

theorem getScore_upsert_self (b : List (String × Int)) (u : String) (s : Int) :
    getScore (upsert b u s) u = s := by
  induction b with
  | nil => simp [upsert, getScore]
  | cons e rest ih =>
    obtain ⟨u1, s1⟩ := e
    by_cases h : u1 = u
    · simp [upsert, getScore, h]
    · simp [upsert, getScore, h, ih]

theorem getScore_upsert_other (b : List (String × Int)) (u u' : String) (s : Int)
    (h : u' ≠ u) : getScore (upsert b u s) u' = getScore b u' := by
  induction b with
  | nil => simp [upsert, getScore, Ne.symm h]
  | cons e rest ih =>
    obtain ⟨u1, s1⟩ := e
    by_cases h1 : u1 = u
    · subst h1
      simp [upsert, getScore, Ne.symm h]
    · by_cases h2 : u1 = u'
      · simp [upsert, getScore, h1, h2, h]
      · simp [upsert, getScore, h1, h2, ih]

theorem keys_upsert (b : List (String × Int)) (u : String) (s : Int) :
    keys (upsert b u s) = if u ∈ keys b then keys b else keys b ++ [u] := by
  induction b with
  | nil => simp [upsert, keys]
  | cons e rest ih =>
    obtain ⟨u1, s1⟩ := e
    by_cases h : u1 = u
    · simp [upsert, keys, h]
    · have h2 : ¬ u = u1 := fun hh => h hh.symm
      have hup : upsert ((u1, s1) :: rest) u s = (u1, s1) :: upsert rest u s := by
        simp [upsert, h]
      have hk : keys ((u1, s1) :: upsert rest u s) = u1 :: keys (upsert rest u s) := rfl
      rw [hup, hk, ih]
      by_cases h3 : u ∈ keys rest
      · simp only [keys] at h3 ⊢
        simp [h3]
      · simp only [keys] at h3 ⊢
        simp [h2, h3]

theorem nodup_keys_upsert (b : List (String × Int)) (u : String) (s : Int)
    (h : (keys b).Nodup) : (keys (upsert b u s)).Nodup := by
  rw [keys_upsert]
  by_cases h1 : u ∈ keys b
  · simpa [h1] using h
  · simp [h1, List.nodup_append, h]

theorem mem_keys_upsert (b : List (String × Int)) (u u' : String) (s : Int) :
    u' ∈ keys (upsert b u s) ↔ u' ∈ keys b ∨ u' = u := by
  rw [keys_upsert]
  by_cases h1 : u ∈ keys b
  · simp only [h1, if_true]
    constructor
    · exact Or.inl
    · rintro (h2 | rfl)
      · exact h2
      · exact h1
  · simp [h1]

theorem nodup_keys_runOps (ops : List (String × Int)) :
    ∀ b : Board, (keys b).Nodup → (keys (runOps b ops)).Nodup := by
  induction ops with
  | nil => intro b h; exact h
  | cons op rest ih =>
    obtain ⟨u, s⟩ := op
    intro b h
    exact ih (upsert b u s) (nodup_keys_upsert b u s h)

theorem mem_keys_runOps (ops : List (String × Int)) :
    ∀ (b : Board) (u : String),
      u ∈ keys (runOps b ops) ↔ u ∈ keys b ∨ u ∈ ops.map Prod.fst := by
  induction ops with
  | nil => intro b u; simp [runOps]
  | cons op rest ih =>
    obtain ⟨u1, s1⟩ := op
    intro b u
    show u ∈ keys (runOps (upsert b u1 s1) rest) ↔ _
    rw [ih (upsert b u1 s1) u, mem_keys_upsert]
    simp [List.map_cons]
    tauto

/-- C4: `addOrUpdate` returns the resulting username/score record and
replaces the stored score entirely (no accumulation) while leaving
other usernames' scores unchanged, and after any sequence of
`addOrUpdate` calls from the empty leaderboard there is exactly one
entry per distinct username, so `size` equals the number of distinct
usernames ever added. -/
theorem addOrUpdate_spec :
    ∀ (b : Board) (u u' : String) (s : Int) (ops : List (String × Int)),
      (addOrUpdate b u s).2 = (u, s) ∧
      getScore (addOrUpdate b u s).1 u = s ∧
      (u' ≠ u → getScore (addOrUpdate b u s).1 u' = getScore b u') ∧
      (keys (runOps [] ops)).Nodup ∧
      size (runOps [] ops) = (ops.map Prod.fst).toFinset.card := by
  intro b u u' s ops
  have hnd : (keys (runOps [] ops)).Nodup := nodup_keys_runOps ops [] (by simp [keys])
  refine ⟨rfl, getScore_upsert_self b u s, fun h => getScore_upsert_other b u u' s h, hnd, ?_⟩
  have hmem : ∀ v, v ∈ keys (runOps [] ops) ↔ v ∈ ops.map Prod.fst := by
    intro v
    rw [mem_keys_runOps ops [] v]
    simp [keys]
  have hfin : (keys (runOps [] ops)).toFinset = (ops.map Prod.fst).toFinset := by
    ext v
    simp [List.mem_toFinset, hmem v]
  have hcard := List.toFinset_card_of_nodup hnd
  have hlen : size (runOps [] ops) = (keys (runOps [] ops)).length := by
    simp [size, keys]
  rw [hlen, ← hcard, hfin]

theorem addOrUpdate_spec_witness :
    getScore (addOrUpdate (upsert [] "octocat" 42) "octocat" 100).1 "other" =
      getScore (upsert [] "octocat" 42) "other" :=
  (addOrUpdate_spec (upsert [] "octocat" 42) "octocat" "other" 100 []).2.2.1 (by decide)
